import Mathlib

/-!
Shallow embedding of the velora validation and scoring core
(src/src/validator/validator.py, src/src/miner/miner.py, src/db/db_manager.py).

Conventions used throughout:
* Python floats are modelled as exact rationals (`ℚ`); Python ints as `ℤ`/`ℕ`.
* Python dicts are modelled as association lists in insertion order
  (`List (ℕ × _)` keyed by miner uid), since Python dicts preserve insertion
  order and the validator iterates them in that order.
* A Python function that can raise is modelled with `Option`/`Except`:
  `none`/`Except.error` marks the raising path.
* Randomness (`random.choice`) is modelled by passing the chosen elements in
  as an explicit argument.
-/

namespace Velora

/-- validator.py line 56: `EPS = 1e-10`; the float literal is modelled as the
exact rational 10⁻¹⁰. -/
def EPS : ℚ := 1 / 10000000000

/-- validator.py line 58: `DAY_SECONDS = 86400`. -/
def DAY_SECONDS : ℚ := 86400

/-- Python dict indexing `d[k]` on a score dict; `none` models a `KeyError`. -/
def dictLookup (d : List (ℕ × ℚ)) (k : ℕ) : Option ℚ :=
  (d.find? (fun p => p.1 == k)).map Prod.snd

/-- The ordering used by validator.py line 128,
`sorted(score_dict.items(), key=lambda x: x[1], reverse=True)`:
`a` is placed before `b` when `b`'s score is at most `a`'s score. -/
def scoreGe (a b : ℕ × ℚ) : Prop := b.2 ≤ a.2

instance : DecidableRel scoreGe := fun a b => inferInstanceAs (Decidable (b.2 ≤ a.2))

instance : IsTotal (ℕ × ℚ) scoreGe := ⟨fun a b => le_total b.2 a.2⟩

instance : IsTrans (ℕ × ℚ) scoreGe := ⟨fun _ _ _ h1 h2 => le_trans h2 h1⟩

/-- validator.py lines 114-133 `cut_to_max_allowed_weights`: stable sort by
score, highest first (CPython's `sorted` with `reverse=True` is stable), then
keep the first `max_allowed_weights` entries.  `List.insertionSort scoreGe` is
exactly this stable descending sort. -/
def cut_to_max_allowed_weights (score_dict : List (ℕ × ℚ)) (max_allowed_weights : ℕ) :
    List (ℕ × ℚ) :=
  (score_dict.insertionSort scoreGe).take max_allowed_weights

/-- Python `int(q)` on a float: truncation toward zero. -/
def int_trunc (q : ℚ) : ℤ := if q < 0 then -⌊-q⌋ else ⌊q⌋

/-- validator.py lines 67-112 `set_weights`, modelled up to the final
`weighted_scores` dict that is submitted via `client.vote`: cut to the
maximum allowed count, rescale each kept score by `int(score * 1000 / scores)`
where `scores` is the sum of the kept scores, then filter out zero weights. -/
def set_weights (score_dict : List (ℕ × ℚ)) (max_allowed_weights : ℕ) :
    List (ℕ × ℤ) :=
  let cut := cut_to_max_allowed_weights score_dict max_allowed_weights
  let scores := (cut.map Prod.snd).sum
  let weighted := cut.map (fun p => (p.1, int_trunc (p.2 * 1000 / scores)))
  weighted.filter (fun p => p.2 != 0)

/-- validator.py line 434: `accuracy_score = ((accuracy_score - 0.75) * 4) ** 3`,
the nonlinear remap applied by `check_pool_event_accuracy` to the raw
spot-check fraction. -/
def accuracy_transform (a : ℚ) : ℚ := ((a - 0.75) * 4) ^ 3

/-- One record of a miner's claimed bulk pool-event answer, with the two
fields `check_miner_answer_pool_event` reads: `block_data.get("block_number")`
(`none` models a missing key) and `block_data.get("transaction_hash")`. -/
structure PoolRecord where
  block_number : Option ℤ
  transaction_hash : String
deriving DecidableEq

/-- validator.py lines 376-390, the trial loop of
`check_miner_answer_pool_event`.  `picks` lists the records chosen by
`random.choice(miner_data)`, one per trial; `events_at bn` is the list of
transaction hashes returned by
`get_pool_events_by_pool_addresses([pool_address], bn, bn)` for the queried
pool.  `none` models the early `return False` taken when a picked record has
no block number or a block number outside `[bs, be]`; otherwise the result is
the number of trials whose transaction hash matched some authoritative
event. -/
def run_trials (bs be : ℤ) (events_at : ℤ → List String) :
    List PoolRecord → Option ℕ
  | [] => some 0
  | r :: rs =>
    match r.block_number with
    | none => none
    | some bn =>
      if bn < bs ∨ be < bn then none
      else (run_trials bs be events_at rs).map
        (fun c => c + (if r.transaction_hash ∈ events_at bn then 1 else 0))

/-- The per-trial acceptance test of validator.py lines 385-389: a trial is
accepted when some authoritative event at the record's block has the same
transaction hash. -/
def trial_match (events_at : ℤ → List String) (r : PoolRecord) : Bool :=
  match r.block_number with
  | none => false
  | some bn => r.transaction_hash ∈ events_at bn

/-- validator.py lines 357-391 `check_miner_answer_pool_event`, for the fixed
`ANSWER_CHECK_COUNT = 10`.  Python's `False` return compares equal to `0` and
is consumed numerically by `check_pool_event_accuracy`, so it is modelled as
the rational `0`.  `miner_data` is `miner_answer.data` (`none` models a `None`
payload), and the random picks of the trial loop are passed explicitly. -/
def check_miner_answer_pool_event (bs be : ℤ) (events_at : ℤ → List String)
    (miner_data : Option (List PoolRecord)) (picks : List PoolRecord) : ℚ :=
  match miner_data with
  | none => 0
  | some _ =>
    match run_trials bs be events_at picks with
    | none => 0
    | some c => (c : ℚ) / 10

/-- validator.py lines 317-332 `get_miner_answer`.  `call` models
`_get_miner_prediction` (lines 275-315): each per-peer call is an independent
function of that peer's synapse and connection info, returning `none` when the
call raised (timeout, connection error, malformed response).  A non-list
`synapses` argument is broadcast via `[synapses] * len(modules_info)`
(`Sum.inl`); the per-peer list case is `Sum.inr`.  The results come back from
`executor.map` in input order, and an empty result list makes the function
return `None`. -/
def get_miner_answer {Syn Info Ans : Type} (call : Syn → Info → Option Ans)
    (modules_info : List (ℕ × Info)) (synapses : Syn ⊕ List Syn) :
    Option (List (Option Ans)) :=
  let syns : List Syn :=
    match synapses with
    | Sum.inl s => List.replicate modules_info.length s
    | Sum.inr l => l
  let answers := (syns.zip (modules_info.map Prod.snd)).map (fun p => call p.1 p.2)
  if answers.isEmpty then none else some answers

/-- Python `max` over a nonempty list of floats (the `[]` case is arbitrary;
`max()` on an empty sequence raises and is never reached in the modelled
call sites). -/
def listMax : List ℚ → ℚ
  | [] => 0
  | t :: ts => ts.foldl max t

/-- Python `min` over a nonempty list of floats. -/
def listMin : List ℚ → ℚ
  | [] => 0
  | t :: ts => ts.foldl min t

/-- The per-peer health score of validator.py lines 502-506: `0.6` times the
reported completeness timestamp normalised by the round maximum `mx`, plus
`0.4` times `max(0, (10 * DAY_SECONDS + t - today) / DAY_SECONDS / 10)`. -/
def healthScore (mx today t : ℚ) : ℚ :=
  (t / mx) * 0.6 + max 0 ((10 * DAY_SECONDS + t - today) / DAY_SECONDS / 10) * 0.4

/-- validator.py lines 493-506 `score_health_check`.  A miner result is its
reported `time_completed` (`none` models a peer whose health call failed);
peers with `none` are dropped by the `miner_answer is not None` filter, and
each remaining peer gets `healthScore` against the round maximum. -/
def score_health_check (miner_results : List (ℕ × Option ℚ)) (today : ℚ) :
    List (ℕ × ℚ) :=
  let valid := miner_results.filterMap (fun p => p.2.map (fun t => (p.1, t)))
  if valid.isEmpty then []
  else
    let mx := listMax (valid.map Prod.snd)
    valid.map (fun p => (p.1, healthScore mx today p.2))

/-- validator.py line 590:
`valid_miner_infos = {key: modules_info[key] for key in health_score}` —
the peer directory for all rounds after the health round is re-keyed by the
health-score keys only. -/
def valid_miner_infos {Info : Type} (modules_info : List (ℕ × Info))
    (health_score : List (ℕ × ℚ)) : List (ℕ × Info) :=
  health_score.filterMap
    (fun p => (modules_info.find? (fun q => q.1 == p.1)).map (fun q => (p.1, q.2)))

/-- The latency normalisation of validator.py lines 488 and 533:
`1 - 0.5 * (process_time - min_time) / (max_time - min_time + EPS)`. -/
def latency_score (mn mx t : ℚ) : ℚ :=
  1 - 0.5 * (t - mn) / (mx - mn + EPS)

/-- The normalised process-time score map built at validator.py lines
486-488 (and identically at lines 531-533): min-max over the responding
peers' elapsed times, then `latency_score` applied to each entry. -/
def latency_scores (process_time_score : List (ℕ × ℚ)) : List (ℕ × ℚ) :=
  let mx := listMax (process_time_score.map Prod.snd)
  let mn := listMin (process_time_score.map Prod.snd)
  process_time_score.map (fun p => (p.1, latency_score mn mx p.2))

/-- validator.py lines 508-565 `score_signal_events`.  A miner result is
`some t` (its elapsed process time) for a responding peer and `none` for a
non-responder.  With no responders the function returns `{}` (line 529).
Reaching past that point cannot produce a value: `get_deviation_scores`
(lines 548-554) is not well-formed Python, `get_min_max_deviations`
(lines 536-545) unpacks the keys of an int-keyed dict as pairs, and the
final blend (line 563) reads the name `accuracy_score`, which is not defined
anywhere in this function.  That raising path is modelled as
`Except.error`. -/
def score_signal_events (miner_results : List (ℕ × Option ℚ)) :
    Except String (List (ℕ × ℚ)) :=
  let responders := miner_results.filterMap (fun p => p.2.map (fun t => (p.1, t)))
  if responders.isEmpty then Except.ok []
  else Except.error ("name accuracy_score is not defined")

/-- validator.py line 616, the final blend of `validate_step`:
`{key: health_score[key] * 0.3 + pool_events_score[key] * 0.3 +
signal_events_score[key] * 0.4 for key in modules_info.keys()}`.
The comprehension runs over every discovered peer; `none` models the
`KeyError` raised when some peer is missing from one of the three maps. -/
def validate_step_scores (module_keys : List ℕ)
    (health_score pool_events_score signal_events_score : List (ℕ × ℚ)) :
    Option (List (ℕ × ℚ)) :=
  module_keys.mapM (fun k => do
    let h ← dictLookup health_score k
    let p ← dictLookup pool_events_score k
    let s ← dictLookup signal_events_score k
    pure (k, h * 0.3 + p * 0.3 + s * 0.4))

/-- One pool-creation event as returned by
`get_pool_created_events_between_two_timestamps` (miner.py line 49). -/
structure TokenPairEvent where
  token0 : String
  token1 : String
  fee : ℤ
  pool : String
  block_number : String
deriving DecidableEq

/-- One row of the `token_pairs` table (db_manager.py lines 19-27).  The
surrogate autoincrement id is irrelevant to row identity here and omitted;
nothing in the schema constrains `(token0, token1, fee)`. -/
structure TokenPairRow where
  token0 : String
  token1 : String
  fee : ℤ
  pool : String
  block_number : String
  completed : Bool
deriving DecidableEq

/-- db_manager.py lines 159-169 `DBManager.add_token_pairs`: build one
`completed = False` row per event and `session.add_all` them — an
unconditional append to the table, with no conflict handling. -/
def add_token_pairs (table : List TokenPairRow) (token_pairs : List TokenPairEvent) :
    List TokenPairRow :=
  table ++ token_pairs.map
    (fun tp => ⟨tp.token0, tp.token1, tp.fee, tp.pool, tp.block_number, false⟩)

/-- The miner-side sync state: the in-memory cursor `self.last_synced_time`
and the `token_pairs` table. -/
structure MinerState where
  last_synced_time : ℤ
  token_pairs_table : List TokenPairRow
deriving DecidableEq

/-- miner.py lines 45-53 `sync_token_pairs`: fetch all pool-creation events
between the cursor and `now` (`int(datetime.now().timestamp() - 12)`, passed
in as an explicit argument), append them via `add_token_pairs`, and advance
the cursor to `now`. -/
def sync_token_pairs (fetch : ℤ → ℤ → List TokenPairEvent) (now : ℤ)
    (st : MinerState) : MinerState :=
  { last_synced_time := now,
    token_pairs_table := add_token_pairs st.token_pairs_table (fetch st.last_synced_time now) }

/-- A concrete event feed for the sync re-run scenario: one pool-creation
event in the initial window starting at the epoch cursor `0`, and no events
in any later window. -/
def syncFetch : ℤ → ℤ → List TokenPairEvent :=
  fun s _ => if s = 0 then [⟨"A", "B", 500, "P", "1"⟩] else []

/-! ## Helper lemmas -/

lemma isEmpty_false_of_mem {α : Type _} {l : List α} {x : α} (h : x ∈ l) :
    l.isEmpty = false := by
  cases l with
  | nil => cases h
  | cons a t => rfl

lemma le_foldl_max (l : List ℚ) : ∀ b : ℚ, b ≤ l.foldl max b := by
  induction l with
  | nil => intro b; exact le_refl b
  | cons c cs ih => intro b; exact le_trans (le_max_left b c) (ih (max b c))

lemma mem_le_foldl_max (l : List ℚ) : ∀ b x : ℚ, x ∈ l → x ≤ l.foldl max b := by
  induction l with
  | nil => intro b x hx; cases hx
  | cons c cs ih =>
    intro b x hx
    rcases List.mem_cons.mp hx with rfl | hx
    · exact le_trans (le_max_right b x) (le_foldl_max cs (max b x))
    · exact ih (max b c) x hx

lemma le_listMax (x : ℚ) (l : List ℚ) (hx : x ∈ l) : x ≤ listMax l := by
  cases l with
  | nil => cases hx
  | cons t ts =>
    rcases List.mem_cons.mp hx with rfl | hx
    · exact le_foldl_max ts x
    · exact mem_le_foldl_max ts t x hx

lemma run_trials_eq_none (bs be : ℤ) (events_at : ℤ → List String)
    (picks : List PoolRecord)
    (h : ∃ r ∈ picks, ∃ bn, r.block_number = some bn ∧ (bn < bs ∨ be < bn)) :
    run_trials bs be events_at picks = none := by
  induction picks with
  | nil => obtain ⟨r, hr, _⟩ := h; exact absurd hr (List.not_mem_nil r)
  | cons r rs ih =>
    obtain ⟨q, hq, bn, hbn, hout⟩ := h
    rcases List.mem_cons.mp hq with rfl | hq
    · simp [run_trials, hbn, hout]
    · cases hr : r.block_number with
      | none => simp [run_trials, hr]
      | some b =>
        by_cases hb : b < bs ∨ be < b
        · simp [run_trials, hr, hb]
        · simp [run_trials, hr, hb, ih ⟨q, hq, bn, hbn, hout⟩]

lemma run_trials_eq_countP (bs be : ℤ) (events_at : ℤ → List String)
    (picks : List PoolRecord)
    (h : ∀ r ∈ picks, ∃ bn, r.block_number = some bn ∧ bs ≤ bn ∧ bn ≤ be) :
    run_trials bs be events_at picks = some (picks.countP (trial_match events_at)) := by
  induction picks with
  | nil => rfl
  | cons r rs ih =>
    obtain ⟨bn, hbn, hge, hle⟩ := h r (List.mem_cons_self r rs)
    have hnot : ¬ (bn < bs ∨ be < bn) := by
      push_neg
      exact ⟨hge, hle⟩
    have hrec := ih (fun q hq => h q (List.mem_cons_of_mem r hq))
    simp [run_trials, hbn, hnot, hrec, List.countP_cons, trial_match, Nat.add_comm]

lemma zip_replicate_call {Syn Info Ans : Type} (call : Syn → Info → Option Ans) (s : Syn) :
    ∀ mi : List (ℕ × Info),
      ((List.replicate mi.length s).zip (mi.map Prod.snd)).map (fun p => call p.1 p.2) =
        mi.map (fun p => call s p.2)
  | [] => rfl
  | x :: xs => by
    simp only [List.length_cons, List.replicate_succ, List.map_cons, List.zip_cons_cons]
    exact congrArg _ (zip_replicate_call call s xs)

lemma zip_list_call {Syn Info Ans : Type} (call : Syn → Info → Option Ans) :
    ∀ (ss : List Syn) (mi : List (ℕ × Info)),
      ((ss.zip (mi.map Prod.snd)).map (fun p => call p.1 p.2)) =
        List.zipWith (fun s p => call s p.2) ss mi
  | [], mi => by cases mi <;> rfl
  | s :: ss, [] => rfl
  | s :: ss, p :: mi => by
    simp only [List.map_cons, List.zip_cons_cons, List.zipWith_cons_cons]
    exact congrArg _ (zip_list_call call ss mi)

lemma get_miner_answer_inl_eq {Syn Info Ans : Type} (call : Syn → Info → Option Ans)
    (mi : List (ℕ × Info)) (s : Syn) (hne : mi ≠ []) :
    get_miner_answer call mi (Sum.inl s) = some (mi.map (fun p => call s p.2)) := by
  have h1 := zip_replicate_call call s mi
  have h2 : (mi.map (fun p => call s p.2)).isEmpty = false := by
    cases mi with
    | nil => exact absurd rfl hne
    | cons a l => rfl
  simp only [get_miner_answer, h1, h2]
  rfl

lemma get_miner_answer_inr_eq {Syn Info Ans : Type} (call : Syn → Info → Option Ans)
    (mi : List (ℕ × Info)) (ss : List Syn) (hne : mi ≠ [])
    (hlen : ss.length = mi.length) :
    get_miner_answer call mi (Sum.inr ss) =
      some (List.zipWith (fun s p => call s p.2) ss mi) := by
  have hz := zip_list_call call ss mi
  have h2 : (List.zipWith (fun s p => call s p.2) ss mi).isEmpty = false := by
    obtain ⟨p, mi2, rfl⟩ := List.exists_cons_of_ne_nil hne
    cases ss with
    | nil => simp at hlen
    | cons a b => rfl
  simp only [get_miner_answer, hz, h2]
  rfl

/-! ## Claim theorems -/

/-- C2: the accuracy transform `((a - 0.75) * 4) ^ 3` applied by
`check_pool_event_accuracy` is monotonically increasing, equals `0` at
`a = 0.75`, is strictly negative for `a < 0.75`, and equals `1` at
`a = 1.0` (stated for all rationals, hence in particular on `[0, 1]`). -/
theorem accuracy_transform_props :
    (∀ a b : ℚ, a < b → accuracy_transform a < accuracy_transform b) ∧
    accuracy_transform 0.75 = 0 ∧
    (∀ a : ℚ, a < 0.75 → accuracy_transform a < 0) ∧
    accuracy_transform 1 = 1 := by
  have hmono : ∀ a b : ℚ, a < b → accuracy_transform a < accuracy_transform b := by
    intro a b hab
    have h1 : (a - 0.75) * 4 < (b - 0.75) * 4 := by
      have h75 : (0.75 : ℚ) = 3 / 4 := by norm_num
      rw [h75]
      linarith
    have h2 := (Odd.strictMono_pow (R := ℚ) (⟨1, by norm_num⟩ : Odd 3)) h1
    simpa [accuracy_transform] using h2
  have hzero : accuracy_transform 0.75 = 0 := by
    norm_num [accuracy_transform]
  refine ⟨hmono, hzero, ?_, by norm_num [accuracy_transform]⟩
  intro a ha
  have := hmono a 0.75 ha
  rwa [hzero] at this

/-- Witness for C2 at concrete inputs. -/
theorem accuracy_transform_props_witness :
    accuracy_transform 0 < accuracy_transform 1 ∧ accuracy_transform (1/2) < 0 :=
  ⟨accuracy_transform_props.1 0 1 (by norm_num),
   accuracy_transform_props.2.2.1 (1/2) (by norm_num)⟩

/-- C3: during the bulk-data spot check, if any randomly picked claimed
record reports a block number outside the authoritative block range
`[bs, be]`, the returned score is exactly `0` (Python's `return False`);
otherwise the raw accuracy is the number of the 10 trials whose transaction
hash matched some authoritative event at the record's block, divided by 10,
and that value lies in `[0, 1]`. -/
theorem check_miner_answer_pool_event_spec (bs be : ℤ) (events_at : ℤ → List String)
    (data picks : List PoolRecord) (hlen : picks.length = 10) :
    ((∃ r ∈ picks, ∃ bn, r.block_number = some bn ∧ (bn < bs ∨ be < bn)) →
      check_miner_answer_pool_event bs be events_at (some data) picks = 0) ∧
    ((∀ r ∈ picks, ∃ bn, r.block_number = some bn ∧ bs ≤ bn ∧ bn ≤ be) →
      check_miner_answer_pool_event bs be events_at (some data) picks =
        (picks.countP (trial_match events_at) : ℚ) / 10 ∧
      0 ≤ check_miner_answer_pool_event bs be events_at (some data) picks ∧
      check_miner_answer_pool_event bs be events_at (some data) picks ≤ 1) := by
  constructor
  · intro h
    simp [check_miner_answer_pool_event, run_trials_eq_none bs be events_at picks h]
  · intro h
    have heq : check_miner_answer_pool_event bs be events_at (some data) picks =
        (picks.countP (trial_match events_at) : ℚ) / 10 := by
      simp [check_miner_answer_pool_event, run_trials_eq_countP bs be events_at picks h]
    refine ⟨heq, ?_, ?_⟩
    · rw [heq]
      positivity
    · rw [heq]
      have hc : picks.countP (trial_match events_at) ≤ 10 :=
        hlen ▸ picks.countP_le_length (trial_match events_at)
      rw [div_le_one (by norm_num)]
      exact_mod_cast hc

/-- Witness for C3: ten in-range picks that all match give raw accuracy 1. -/
theorem check_miner_answer_pool_event_spec_witness :
    check_miner_answer_pool_event 0 100 (fun _ => ["h"])
      (some [⟨some 5, "h"⟩]) (List.replicate 10 ⟨some 5, "h"⟩) =
      ((List.replicate 10 (⟨some 5, "h"⟩ : PoolRecord)).countP
        (trial_match (fun _ => ["h"])) : ℚ) / 10 ∧
    0 ≤ check_miner_answer_pool_event 0 100 (fun _ => ["h"])
      (some [⟨some 5, "h"⟩]) (List.replicate 10 ⟨some 5, "h"⟩) ∧
    check_miner_answer_pool_event 0 100 (fun _ => ["h"])
      (some [⟨some 5, "h"⟩]) (List.replicate 10 ⟨some 5, "h"⟩) ≤ 1 :=
  (check_miner_answer_pool_event_spec 0 100 (fun _ => ["h"])
    [⟨some 5, "h"⟩] (List.replicate 10 ⟨some 5, "h"⟩) (by rfl)).2
    (fun r hr => by
      rw [List.eq_of_mem_replicate hr]
      exact ⟨5, rfl, by decide, by decide⟩)

/-- C4: for a non-empty peer directory, the polling round returns exactly
one result per input peer, in directory order, under both invocation forms
of the poller — a single broadcast synapse (the health round, line 586), and
a per-peer synapse list with one synapse per peer (how the pool-event and
signal rounds invoke it: lines 598-601 and 606-609 build exactly one synapse
per healthy peer, in directory order, before polling `valid_miner_infos`;
§4.4 of the design likewise defines the poller's input as one shared request
or one request per peer).  In both forms the result for peer `i` is `call`
evaluated on that peer's synapse and connection info alone, so a failed call
(`none`) affects only its own entry. -/
theorem get_miner_answer_per_peer {Syn Info Ans : Type} (call : Syn → Info → Option Ans)
    (modules_info : List (ℕ × Info)) (hne : modules_info ≠ []) :
    (∀ s : Syn, get_miner_answer call modules_info (Sum.inl s) =
      some (modules_info.map (fun p => call s p.2))) ∧
    (∀ synapses : List Syn, synapses.length = modules_info.length →
      get_miner_answer call modules_info (Sum.inr synapses) =
        some (List.zipWith (fun s p => call s p.2) synapses modules_info) ∧
      (List.zipWith (fun s p => call s p.2) synapses modules_info).length =
        modules_info.length) := by
  constructor
  · intro s
    exact get_miner_answer_inl_eq call modules_info s hne
  · intro synapses hlen
    refine ⟨get_miner_answer_inr_eq call modules_info synapses hne hlen, ?_⟩
    rw [List.length_zipWith, hlen, min_self]

/-- Witness for C4: a single peer whose call fails maps to `none`, under
both the broadcast form and the one-synapse-per-peer list form. -/
theorem get_miner_answer_per_peer_witness :
    get_miner_answer (fun (_ : Unit) (_ : Unit) => (none : Option Unit))
      [(1, ())] (Sum.inl ()) = some [none] ∧
    get_miner_answer (fun (_ : Unit) (_ : Unit) => (none : Option Unit))
      [(1, ())] (Sum.inr [()]) = some [none] :=
  ⟨(get_miner_answer_per_peer (fun _ _ => none) [(1, ())] (by decide)).1 (),
   ((get_miner_answer_per_peer (fun _ _ => none) [(1, ())] (by decide)).2 [()] (by decide)).1⟩

/-- C10 counterexample: on a non-empty directory the unqualified
one-result-per-peer shape fails for a per-peer synapse list of the wrong
length — the `zip` at line 323 truncates to the shorter operand, so an empty
list makes the function return `None` (the empty-answers check), and a
one-synapse list against a two-peer directory yields a silently truncated
single-result list (length 1, not 2). -/
theorem get_miner_answer_list_mismatch :
    get_miner_answer (fun (_ : Unit) (_ : Unit) => (some () : Option Unit))
      [(1, ())] (Sum.inr []) = none ∧
    get_miner_answer (fun (_ : Unit) (_ : Unit) => (some () : Option Unit))
      [(1, ()), (2, ())] (Sum.inr [()]) = some [some ()] :=
  ⟨rfl, rfl⟩

/-- C10 (amended): on an empty peer directory `get_miner_answer` returns
`None` (not an empty collection) for either synapse form; on a non-empty
directory it returns a list with exactly one entry per peer, in the
directory's order, when invoked as the validator invokes it — with a single
broadcast synapse, or with a per-peer synapse list holding one synapse per
peer.  (A per-peer list of a different length is truncated by the `zip` at
line 323: see the counterexample.) -/
theorem get_miner_answer_empty_and_order {Syn Info Ans : Type}
    (call : Syn → Info → Option Ans) :
    (∀ synapses, get_miner_answer call ([] : List (ℕ × Info)) synapses = none) ∧
    (∀ (modules_info : List (ℕ × Info)) (s : Syn), modules_info ≠ [] →
      get_miner_answer call modules_info (Sum.inl s) =
        some (modules_info.map (fun p => call s p.2)) ∧
      (modules_info.map (fun p => call s p.2)).length = modules_info.length) ∧
    (∀ (modules_info : List (ℕ × Info)) (synapses : List Syn), modules_info ≠ [] →
      synapses.length = modules_info.length →
      get_miner_answer call modules_info (Sum.inr synapses) =
        some (List.zipWith (fun s p => call s p.2) synapses modules_info) ∧
      (List.zipWith (fun s p => call s p.2) synapses modules_info).length =
        modules_info.length) := by
  refine ⟨?_, ?_, ?_⟩
  · intro synapses
    cases synapses with
    | inl s => rfl
    | inr l => simp [get_miner_answer]
  · intro modules_info s hne
    exact ⟨get_miner_answer_inl_eq call modules_info s hne, modules_info.length_map _⟩
  · intro modules_info synapses hne hlen
    refine ⟨get_miner_answer_inr_eq call modules_info synapses hne hlen, ?_⟩
    rw [List.length_zipWith, hlen, min_self]

/-- Witness for C10 (amended) at a concrete one-peer directory, exercising
the empty case, the broadcast case, and the one-synapse-per-peer list
case. -/
theorem get_miner_answer_empty_and_order_witness :
    get_miner_answer (fun (_ : Unit) (_ : Unit) => (some () : Option Unit))
      ([] : List (ℕ × Unit)) (Sum.inl ()) = none ∧
    get_miner_answer (fun (_ : Unit) (_ : Unit) => (some () : Option Unit))
      [(7, ())] (Sum.inl ()) = some [some ()] ∧
    get_miner_answer (fun (_ : Unit) (_ : Unit) => (some () : Option Unit))
      [(7, ())] (Sum.inr [()]) = some [some ()] :=
  ⟨(get_miner_answer_empty_and_order (fun _ _ => some ())).1 (Sum.inl ()),
   ((get_miner_answer_empty_and_order (fun _ _ => some ())).2.1 [(7, ())] () (by decide)).1,
   ((get_miner_answer_empty_and_order (fun _ _ => some ())).2.2 [(7, ())] [()]
     (by decide) (by decide)).1⟩

/-- C1 (code bug): the final blend of `validate_step` (line 616) iterates
`modules_info.keys()`, so a peer that failed the health check — present in
the directory but absent from the three score maps — raises a `KeyError`
(modelled as `none`) instead of being excluded; when every discovered peer
does carry all three scores, each score is the fixed blend
`0.3 * health + 0.3 * pool + 0.4 * signal`. -/
theorem validate_step_scores_keyerror :
    validate_step_scores [1, 2] [(1, 1)] [(1, 1)] [(1, 1)] = none ∧
    validate_step_scores [1] [(1, 1/2)] [(1, 1/2)] [(1, 1/2)] = some [(1, 1/2)] := by
  refine ⟨rfl, ?_⟩
  simp only [validate_step_scores, dictLookup, List.mapM_cons, List.mapM_nil, List.find?]
  norm_num

/-- C6 (code bug): `score_signal_events` returns `{}` when no peer responded,
but with at least one responder it cannot return: the deviation-scoring body
is ill-formed and the final blend reads the undefined name `accuracy_score`
(validator.py line 563), modelled as an `Except.error`. -/
theorem score_signal_events_raises :
    score_signal_events [(1, some 1)] =
      Except.error ("name accuracy_score is not defined") ∧
    score_signal_events [] = Except.ok [] :=
  ⟨rfl, rfl⟩

/-- C7 counterexample: with elapsed times `0` and `1`, the slowest
responder's normalised latency score is `5000000001 / 10000000001`
(that is, `1 - 0.5 / (1 + EPS)`), which is not `0.5`. -/
theorem latency_scores_slowest_ne_half :
    latency_scores [(1, 0), (2, 1)] =
      [(1, 1), (2, 5000000001 / 10000000001)] ∧
    ((5000000001 : ℚ) / 10000000001) ≠ 1 / 2 := by
  constructor
  · simp only [latency_scores, latency_score, listMax, listMin, List.map_cons,
      List.map_nil, List.foldl_cons, List.foldl_nil, EPS]
    norm_num
  · norm_num

/-- C7 (amended): in a round with at least two responding peers with
distinct elapsed times, the fastest responder's latency score is exactly
`1.0`, while the slowest responder's score is strictly between `0.5` and
`1`: it is `1 - 0.5 * (mx - mn) / (mx - mn + EPS)`, which only approaches
`0.5` in the limit because of the `EPS` guard in the denominator. -/
theorem latency_scores_endpoints (pt : List (ℕ × ℚ)) (kf ks : ℕ) (tf ts : ℚ)
    (hf : (kf, tf) ∈ pt) (hs : (ks, ts) ∈ pt)
    (hfmin : tf = listMin (pt.map Prod.snd))
    (hsmax : ts = listMax (pt.map Prod.snd))
    (hlt : tf < ts) :
    (kf, 1) ∈ latency_scores pt ∧
    ∃ v, (ks, v) ∈ latency_scores pt ∧ 1 / 2 < v ∧ v < 1 := by
  have hEPS : (0 : ℚ) < EPS := by norm_num [EPS]
  have hd : 0 < listMax (pt.map Prod.snd) - listMin (pt.map Prod.snd) := by
    rw [← hsmax, ← hfmin]
    linarith
  constructor
  · have h1 : latency_score (listMin (pt.map Prod.snd)) (listMax (pt.map Prod.snd)) tf = 1 := by
      rw [latency_score, hfmin]
      simp
    refine List.mem_map.mpr ⟨(kf, tf), hf, ?_⟩
    show (kf, latency_score (listMin (pt.map Prod.snd)) (listMax (pt.map Prod.snd)) tf) = (kf, 1)
    rw [h1]
  · refine ⟨latency_score (listMin (pt.map Prod.snd)) (listMax (pt.map Prod.snd)) ts,
      List.mem_map.mpr ⟨(ks, ts), hs, rfl⟩, ?_, ?_⟩
    · rw [latency_score, hsmax]
      rw [show (1 : ℚ) / 2 < 1 - 0.5 * (listMax (pt.map Prod.snd) - listMin (pt.map Prod.snd)) /
            (listMax (pt.map Prod.snd) - listMin (pt.map Prod.snd) + EPS) ↔
          0.5 * (listMax (pt.map Prod.snd) - listMin (pt.map Prod.snd)) /
            (listMax (pt.map Prod.snd) - listMin (pt.map Prod.snd) + EPS) < 1 / 2 from by
        constructor <;> intro h <;> linarith]
      rw [div_lt_iff (by linarith)]
      linarith
    · rw [latency_score, hsmax]
      have hpos : 0 < 0.5 * (listMax (pt.map Prod.snd) - listMin (pt.map Prod.snd)) /
          (listMax (pt.map Prod.snd) - listMin (pt.map Prod.snd) + EPS) := by
        apply div_pos (by linarith) (by linarith)
      linarith

/-- Witness for C7 (amended) at concrete elapsed times `0` and `1`. -/
theorem latency_scores_endpoints_witness :
    (1, 1) ∈ latency_scores [(1, 0), (2, 1)] ∧
    ∃ v, (2, v) ∈ latency_scores [(1, 0), (2, 1)] ∧ 1 / 2 < v ∧ v < 1 :=
  latency_scores_endpoints [(1, 0), (2, 1)] 1 2 0 1 (by simp) (by simp)
    (by norm_num [listMin]) (by norm_num [listMax]) (by norm_num)

/-- C8 (code bug): re-running `sync_token_pairs` with no intervening
pool-creation events inserts zero new rows and leaves the cursor
non-decreasing (the second fetch window is empty), but duplicate insertion
is not guarded by the natural key: `add_token_pairs` appends
unconditionally and the `token_pairs` schema constrains nothing but the
surrogate id, so inserting an already-present pair yields two rows with the
same `(token0, token1, fee)`. -/
theorem sync_token_pairs_rerun_and_duplicates :
    (sync_token_pairs syncFetch 200 (sync_token_pairs syncFetch 100 ⟨0, []⟩)).token_pairs_table
      = (sync_token_pairs syncFetch 100 ⟨0, []⟩).token_pairs_table ∧
    (sync_token_pairs syncFetch 100 ⟨0, []⟩).last_synced_time ≤
      (sync_token_pairs syncFetch 200 (sync_token_pairs syncFetch 100 ⟨0, []⟩)).last_synced_time ∧
    (add_token_pairs (sync_token_pairs syncFetch 100 ⟨0, []⟩).token_pairs_table
        [⟨"A", "B", 500, "P", "1"⟩]).countP
      (fun r => r.token0 == "A" && r.token1 == "B" && r.fee == 500) = 2 := by
  refine ⟨?_, ?_, ?_⟩ <;> decide

/-- C9: among peers that answered the health round (with positive reported
timestamps), a strictly fresher `time_completed` yields a strictly higher
health score `0.6 * (t / mx) + 0.4 * max 0 ((10 * DAY_SECONDS + t - today) /
DAY_SECONDS / 10)`; and a peer whose health call produced no answer gets no
health score and is absent from the `valid_miner_infos` directory used for
every subsequent round. -/
theorem score_health_check_fresher_higher (miner_results : List (ℕ × Option ℚ))
    (today : ℚ) (k1 k2 kt : ℕ) (t1 t2 : ℚ)
    (h1 : (k1, some t1) ∈ miner_results) (h2 : (k2, some t2) ∈ miner_results)
    (hpos : 0 < t1) (hlt : t1 < t2)
    (ht : ∀ r, (kt, r) ∈ miner_results → r = none) :
    (∃ s1 s2, (k1, s1) ∈ score_health_check miner_results today ∧
      (k2, s2) ∈ score_health_check miner_results today ∧ s1 < s2) ∧
    (∀ s, (kt, s) ∉ score_health_check miner_results today) ∧
    (∀ (Info : Type) (modules_info : List (ℕ × Info)) (inf : Info),
      (kt, inf) ∉ valid_miner_infos modules_info (score_health_check miner_results today)) := by
  have hv1 : (k1, t1) ∈ miner_results.filterMap (fun p => p.2.map (fun t => (p.1, t))) :=
    List.mem_filterMap.mpr ⟨(k1, some t1), h1, rfl⟩
  have hv2 : (k2, t2) ∈ miner_results.filterMap (fun p => p.2.map (fun t => (p.1, t))) :=
    List.mem_filterMap.mpr ⟨(k2, some t2), h2, rfl⟩
  have hne := isEmpty_false_of_mem hv1
  have hout : score_health_check miner_results today =
      (miner_results.filterMap (fun p => p.2.map (fun t => (p.1, t)))).map
        (fun p => (p.1, healthScore
          (listMax ((miner_results.filterMap (fun p => p.2.map (fun t => (p.1, t)))).map Prod.snd))
          today p.2)) := by
    rw [score_health_check]
    simp only [hne]
    rfl
  have hmx : t2 ≤ listMax ((miner_results.filterMap
      (fun p => p.2.map (fun t => (p.1, t)))).map Prod.snd) :=
    le_listMax t2 _ (List.mem_map.mpr ⟨(k2, t2), hv2, rfl⟩)
  have hmxpos : 0 < listMax ((miner_results.filterMap
      (fun p => p.2.map (fun t => (p.1, t)))).map Prod.snd) := by linarith
  have hnotin : ∀ s, (kt, s) ∉ score_health_check miner_results today := by
    intro s hmem
    rw [hout] at hmem
    obtain ⟨⟨k, t⟩, hvmem, heq⟩ := List.mem_map.mp hmem
    obtain ⟨⟨ka, ra⟩, hma, hfa⟩ := List.mem_filterMap.mp hvmem
    have hk : k = kt := congrArg Prod.fst heq
    cases ra with
    | none => exact Option.noConfusion hfa
    | some tv =>
      have : (ka, tv) = (k, t) := Option.some.inj hfa
      have hka : ka = kt := hk ▸ congrArg Prod.fst this
      have := ht (some tv) (hka ▸ hma)
      exact Option.noConfusion this
  refine ⟨?_, hnotin, ?_⟩
  · refine ⟨healthScore
      (listMax ((miner_results.filterMap (fun p => p.2.map (fun t => (p.1, t)))).map Prod.snd))
      today t1,
      healthScore
      (listMax ((miner_results.filterMap (fun p => p.2.map (fun t => (p.1, t)))).map Prod.snd))
      today t2, ?_, ?_, ?_⟩
    · rw [hout]
      exact List.mem_map.mpr ⟨(k1, t1), hv1, rfl⟩
    · rw [hout]
      exact List.mem_map.mpr ⟨(k2, t2), hv2, rfl⟩
    · unfold healthScore
      have hA : t1 / listMax ((miner_results.filterMap
          (fun p => p.2.map (fun t => (p.1, t)))).map Prod.snd) <
          t2 / listMax ((miner_results.filterMap
          (fun p => p.2.map (fun t => (p.1, t)))).map Prod.snd) :=
        (div_lt_div_right hmxpos).mpr hlt
      have hR : max 0 ((10 * DAY_SECONDS + t1 - today) / DAY_SECONDS / 10) ≤
          max 0 ((10 * DAY_SECONDS + t2 - today) / DAY_SECONDS / 10) := by
        apply max_le_max le_rfl
        apply (div_le_div_right (by norm_num : (0:ℚ) < 10)).mpr
        apply (div_le_div_right (by norm_num [DAY_SECONDS] : (0:ℚ) < DAY_SECONDS)).mpr
        linarith
      linarith
  · intro Info modules_info inf hmem
    obtain ⟨p, hp, hfp⟩ := List.mem_filterMap.mp hmem
    cases hfind : modules_info.find? (fun q => q.1 == p.1) with
    | none =>
      rw [hfind] at hfp
      exact Option.noConfusion hfp
    | some q =>
      rw [hfind] at hfp
      have : (p.1, q.2) = (kt, inf) := Option.some.inj hfp
      have hp1 : p.1 = kt := congrArg Prod.fst this
      exact hnotin p.2 (by rw [← hp1]; exact hp)

/-- Witness for C9 at a concrete health round: peers 1 and 2 answer with
timestamps 1 and 2, peer 3 times out. -/
theorem score_health_check_fresher_higher_witness :
    (∃ s1 s2, (1, s1) ∈ score_health_check [(1, some 1), (2, some 2), (3, none)] 100 ∧
      (2, s2) ∈ score_health_check [(1, some 1), (2, some 2), (3, none)] 100 ∧ s1 < s2) ∧
    (∀ s, (3, s) ∉ score_health_check [(1, some 1), (2, some 2), (3, none)] 100) ∧
    (∀ (Info : Type) (modules_info : List (ℕ × Info)) (inf : Info),
      (3, inf) ∉ valid_miner_infos modules_info
        (score_health_check [(1, some 1), (2, some 2), (3, none)] 100)) :=
  score_health_check_fresher_higher [(1, some 1), (2, some 2), (3, none)] 100 1 2 3 1 2
    (by simp) (by simp) (by norm_num) (by norm_num)
    (by intro r hr; simp at hr; exact hr)

lemma int_trunc_of_nonneg (q : ℚ) (hq : 0 ≤ q) : int_trunc q = ⌊q⌋ := by
  rw [int_trunc, if_neg (not_lt.mpr hq)]

lemma sum_trunc_cast_le (l : List (ℕ × ℚ)) (S : ℚ)
    (h : ∀ q ∈ l, 0 ≤ q.2 * 1000 / S) :
    (((l.map (fun q => int_trunc (q.2 * 1000 / S))).sum : ℤ) : ℚ) ≤
      (l.map (fun q => q.2 * 1000 / S)).sum := by
  induction l with
  | nil => simp
  | cons a t ih =>
    simp only [List.map_cons, List.sum_cons]
    have h1 : ((int_trunc (a.2 * 1000 / S) : ℤ) : ℚ) ≤ a.2 * 1000 / S := by
      rw [int_trunc_of_nonneg _ (h a (List.mem_cons_self a t))]
      exact Int.floor_le _
    have h2 := ih (fun q hq => h q (List.mem_cons_of_mem a hq))
    push_cast at h2 ⊢
    linarith

lemma sum_map_div_eq (l : List (ℕ × ℚ)) (S : ℚ) (hS : S ≠ 0)
    (hsum : (l.map Prod.snd).sum = S) :
    (l.map (fun q => q.2 * 1000 / S)).sum = 1000 := by
  have hfac : (fun q : ℕ × ℚ => q.2 * 1000 / S) =
      fun q : ℕ × ℚ => q.2 * (1000 / S) := by
    funext q
    rw [mul_div_assoc]
  rw [hfac, List.sum_map_mul_right, hsum, mul_comm, div_mul_cancel₀ _ hS]

/-- C5: for any score dict with nonnegative scores, at least one positive,
and a positive cutoff, `set_weights` emits at most `max_allowed_weights`
peers, every emitted weight is strictly positive, the emitted weights sum
to at most 1000, and each kept peer's score dominates every score cut off
by the truncation (peers whose rescaled weight is zero having been
filtered out); in particular for scores `{1: 10, 2: 5, 3: 0}` and
`max_allowed_weights = 2` the output is exactly `{1: 666, 2: 333}`. -/
theorem set_weights_spec :
    (∀ (d : List (ℕ × ℚ)) (m : ℕ), 0 < m →
      (∀ p ∈ d, 0 ≤ p.2) → (∃ p ∈ d, 0 < p.2) →
      (set_weights d m).length ≤ m ∧
      (∀ p ∈ set_weights d m, 0 < p.2) ∧
      ((set_weights d m).map Prod.snd).sum ≤ 1000 ∧
      (∀ p ∈ cut_to_max_allowed_weights d m,
        ∀ q ∈ (d.insertionSort scoreGe).drop m, q.2 ≤ p.2)) ∧
    set_weights [(1, 10), (2, 5), (3, 0)] 2 = [(1, 666), (2, 333)] := by
  constructor
  · intro d m hm hnn hex
    have hnn2 : ∀ p ∈ d.insertionSort scoreGe, 0 ≤ p.2 :=
      fun p hp => hnn p ((List.perm_insertionSort scoreGe d).mem_iff.mp hp)
    have hnncut : ∀ p ∈ cut_to_max_allowed_weights d m, 0 ≤ p.2 :=
      fun p hp => hnn2 p (List.mem_of_mem_take hp)
    obtain ⟨pp, hppmem, hpppos⟩ := hex
    have hppsort : pp ∈ d.insertionSort scoreGe :=
      (List.perm_insertionSort scoreGe d).mem_iff.mpr hppmem
    obtain ⟨hd, tl, hsorteq⟩ : ∃ hd tl, d.insertionSort scoreGe = hd :: tl := by
      cases hsort2 : d.insertionSort scoreGe with
      | nil => rw [hsort2] at hppsort; cases hppsort
      | cons a b => exact ⟨a, b, rfl⟩
    have hsorted : List.Sorted scoreGe (d.insertionSort scoreGe) :=
      List.sorted_insertionSort scoreGe d
    have hhdmax : ∀ q ∈ d.insertionSort scoreGe, q.2 ≤ hd.2 := by
      intro q hq
      rw [hsorteq] at hq hsorted
      rcases List.mem_cons.mp hq with rfl | hq
      · exact le_refl q.2
      · exact (List.sorted_cons.mp hsorted).1 q hq
    have hhdpos : 0 < hd.2 := lt_of_lt_of_le hpppos (hhdmax pp hppsort)
    have hhdcut : hd ∈ cut_to_max_allowed_weights d m := by
      rw [cut_to_max_allowed_weights, hsorteq]
      obtain ⟨k, rfl⟩ : ∃ k, m = k + 1 := ⟨m - 1, (Nat.succ_pred_eq_of_pos hm).symm⟩
      rw [List.take_succ_cons]
      exact List.mem_cons_self hd _
    have hS : 0 < ((cut_to_max_allowed_weights d m).map Prod.snd).sum := by
      have hmem : hd.2 ∈ (cut_to_max_allowed_weights d m).map Prod.snd :=
        List.mem_map.mpr ⟨hd, hhdcut, rfl⟩
      have hall : ∀ x ∈ (cut_to_max_allowed_weights d m).map Prod.snd, (0:ℚ) ≤ x := by
        intro x hx
        obtain ⟨q, hq, rfl⟩ := List.mem_map.mp hx
        exact hnncut q hq
      exact lt_of_lt_of_le hhdpos (List.single_le_sum hall hd.2 hmem)
    have hsw : set_weights d m =
        ((cut_to_max_allowed_weights d m).map (fun p =>
          (p.1, int_trunc (p.2 * 1000 /
            ((cut_to_max_allowed_weights d m).map Prod.snd).sum)))).filter
          (fun p => p.2 != 0) := rfl
    have hargnn : ∀ q ∈ cut_to_max_allowed_weights d m,
        0 ≤ q.2 * 1000 / ((cut_to_max_allowed_weights d m).map Prod.snd).sum :=
      fun q hq => div_nonneg (mul_nonneg (hnncut q hq) (by norm_num)) hS.le
    refine ⟨?_, ?_, ?_, ?_⟩
    · rw [hsw]
      calc (((cut_to_max_allowed_weights d m).map (fun p =>
            (p.1, int_trunc (p.2 * 1000 /
              ((cut_to_max_allowed_weights d m).map Prod.snd).sum)))).filter
              (fun p => p.2 != 0)).length
          ≤ ((cut_to_max_allowed_weights d m).map (fun p =>
            (p.1, int_trunc (p.2 * 1000 /
              ((cut_to_max_allowed_weights d m).map Prod.snd).sum)))).length :=
            List.length_filter_le _ _
        _ = (cut_to_max_allowed_weights d m).length := List.length_map _ _
        _ ≤ m := List.length_take_le m _
    · intro p hp
      rw [hsw] at hp
      have hmf := List.mem_filter.mp hp
      obtain ⟨q, hq, heq⟩ := List.mem_map.mp hmf.1
      have hne0 : p.2 ≠ 0 := by simpa using hmf.2
      have hval : p.2 = int_trunc (q.2 * 1000 /
          ((cut_to_max_allowed_weights d m).map Prod.snd).sum) := by
        rw [← heq]
      have hge : 0 ≤ p.2 := by
        rw [hval, int_trunc_of_nonneg _ (hargnn q hq)]
        exact Int.floor_nonneg.mpr (hargnn q hq)
      exact lt_of_le_of_ne hge (Ne.symm hne0)
    · rw [hsw]
      have hwnn : ∀ a ∈ ((cut_to_max_allowed_weights d m).map (fun p =>
          (p.1, int_trunc (p.2 * 1000 /
            ((cut_to_max_allowed_weights d m).map Prod.snd).sum)))).map Prod.snd,
          (0:ℤ) ≤ a := by
        intro a ha
        obtain ⟨p, hp, rfl⟩ := List.mem_map.mp ha
        obtain ⟨q, hq, rfl⟩ := List.mem_map.mp hp
        show (0:ℤ) ≤ int_trunc _
        rw [int_trunc_of_nonneg _ (hargnn q hq)]
        exact Int.floor_nonneg.mpr (hargnn q hq)
      have hsubl : ((((cut_to_max_allowed_weights d m).map (fun p =>
          (p.1, int_trunc (p.2 * 1000 /
            ((cut_to_max_allowed_weights d m).map Prod.snd).sum)))).filter
            (fun p => p.2 != 0)).map Prod.snd).sum ≤
          (((cut_to_max_allowed_weights d m).map (fun p =>
          (p.1, int_trunc (p.2 * 1000 /
            ((cut_to_max_allowed_weights d m).map Prod.snd).sum)))).map Prod.snd).sum :=
        List.Sublist.sum_le_sum ((List.filter_sublist _).map Prod.snd) hwnn
      have hmm1 : (((cut_to_max_allowed_weights d m).map (fun p =>
          (p.1, int_trunc (p.2 * 1000 /
            ((cut_to_max_allowed_weights d m).map Prod.snd).sum)))).map Prod.snd)
          = (cut_to_max_allowed_weights d m).map (fun q =>
            int_trunc (q.2 * 1000 /
              ((cut_to_max_allowed_weights d m).map Prod.snd).sum)) := by
        rw [List.map_map]
        rfl
      have h1000 : ((((cut_to_max_allowed_weights d m).map (fun q =>
          int_trunc (q.2 * 1000 /
            ((cut_to_max_allowed_weights d m).map Prod.snd).sum))).sum : ℤ) : ℚ)
          ≤ 1000 := by
        refine le_trans (sum_trunc_cast_le _ _ hargnn) ?_
        exact le_of_eq (sum_map_div_eq _ _ (ne_of_gt hS) rfl)
      refine le_trans hsubl ?_
      rw [hmm1]
      exact_mod_cast h1000
    · intro p hp q hq
      have hsorted2 : List.Sorted scoreGe (d.insertionSort scoreGe) :=
        List.sorted_insertionSort scoreGe d
      rw [← List.take_append_drop m (d.insertionSort scoreGe)] at hsorted2
      exact (List.pairwise_append.mp hsorted2).2.2 p hp q hq
  · have hsort : List.insertionSort scoreGe [(1, (10:ℚ)), (2, 5), (3, 0)] =
        [(1, 10), (2, 5), (3, 0)] := by
      norm_num [List.insertionSort, List.orderedInsert, scoreGe]
    have hcut2 : cut_to_max_allowed_weights [(1, (10:ℚ)), (2, 5), (3, 0)] 2 =
        [(1, 10), (2, 5)] := by
      rw [cut_to_max_allowed_weights, hsort]
      rfl
    have hsum : (([(1, (10:ℚ)), (2, 5)]).map Prod.snd).sum = 15 := by
      norm_num
    have h666 : int_trunc ((10:ℚ) * 1000 / 15) = 666 := by
      rw [int_trunc_of_nonneg _ (by norm_num), Int.floor_eq_iff]
      norm_num
    have h333 : int_trunc ((5:ℚ) * 1000 / 15) = 333 := by
      rw [int_trunc_of_nonneg _ (by norm_num), Int.floor_eq_iff]
      norm_num
    simp only [set_weights, hcut2]
    rw [hsum]
    simp only [List.map_cons, List.map_nil]
    rw [h666, h333]
    decide

/-- Witness for C5: the general part applied to the concrete score dict
`{1: 10, 2: 5, 3: 0}` with cutoff 2. -/
theorem set_weights_spec_witness :
    (set_weights [(1, 10), (2, 5), (3, 0)] 2).length ≤ 2 ∧
    (∀ p ∈ set_weights [(1, 10), (2, 5), (3, 0)] 2, 0 < p.2) ∧
    ((set_weights [(1, 10), (2, 5), (3, 0)] 2).map Prod.snd).sum ≤ 1000 ∧
    (∀ p ∈ cut_to_max_allowed_weights [(1, 10), (2, 5), (3, 0)] 2,
      ∀ q ∈ (([(1, 10), (2, 5), (3, 0)] : List (ℕ × ℚ)).insertionSort scoreGe).drop 2,
        q.2 ≤ p.2) :=
  set_weights_spec.1 [(1, 10), (2, 5), (3, 0)] 2 (by norm_num)
    (by
      intro p hp
      simp at hp
      rcases hp with rfl | rfl | rfl <;> norm_num)
    ⟨(1, 10), by simp, by norm_num⟩

end Velora
